import Mathlib

/-!
# Verification of the scene_rdl2 variable pixel buffer subsystem

Shallow embedding of `lib/common/fb_util/VariablePixelBuffer.h` and of the
relevant parts of `lib/scene/rdl2/SceneVariables.cc`.

The repository ships only the header of `VariablePixelBuffer`; the bodies of
`init`, `clear`, `packSparseTiles`, `unpackSparseTiles` and `untile` are not
under `src/`.  Definitions for those operations are therefore modelled from
the spec (each such definition says so in its doc comment).  Everything taken
from `SceneVariables.cc` is transcribed from the source.

Machine data is modelled as `Nat` bytes in `List Nat`; buffer geometry as
`Nat`; fallible operations return `Option`.
-/

namespace SceneRdl2

/-- Pixel format tag, from the `Format` enum in `VariablePixelBuffer.h`
(lines 21–34): RGB888, RGBA8888, FLOAT, FLOAT2, FLOAT3, FLOAT4, plus the
UNINITIALIZED sentinel. -/
inductive Format where
  | RGB888
  | RGBA8888
  | FLOAT
  | FLOAT2
  | FLOAT3
  | FLOAT4
  | UNINITIALIZED
deriving DecidableEq, Repr

/-- Modelled from the spec: the static per-format pixel-size table
(3, 4, 4, 8, 12, 16 bytes).  The spec leaves the function undefined at
UNINITIALIZED (a precondition violation); we return 0 there, and every
operation below guards on the format before consulting it. -/
def getSizeOfPixel : Format → Nat
  | .RGB888 => 3
  | .RGBA8888 => 4
  | .FLOAT => 4
  | .FLOAT2 => 8
  | .FLOAT3 => 12
  | .FLOAT4 => 16
  | .UNINITIALIZED => 0

/-- The `VariablePixelBuffer` state: format tag, geometry and the owned byte
arena (modelled as a list of bytes). -/
structure Buffer where
  format : Format
  width : Nat
  height : Nat
  data : List Nat
deriving DecidableEq, Repr

/-- The default-constructed buffer (`VariablePixelBuffer()`): UNINITIALIZED,
no storage. -/
def emptyBuffer : Buffer := ⟨.UNINITIALIZED, 0, 0, []⟩

/-- A freshly zero-filled buffer of the given format and dimensions. -/
def zeroBuffer (f : Format) (w h : Nat) : Buffer :=
  ⟨f, w, h, List.replicate (w * h * getSizeOfPixel f) 0⟩

/-- Modelled from the spec: `init(format, w, h)` validates, then (re)allocates
`w*h*bytesPerPixel(format)` bytes and returns true; it fails (false, no state
change) on UNINITIALIZED format, zero width or height, or when the allocation
size computation overflows (the size is computed in a 64-bit size type). -/
def bufferInit (buf : Buffer) (format : Format) (w h : Nat) : Bool × Buffer :=
  if format = .UNINITIALIZED ∨ w = 0 ∨ h = 0 ∨ 2 ^ 64 ≤ w * h * getSizeOfPixel format then
    (false, buf)
  else
    (true, ⟨format, w, h, List.replicate (w * h * getSizeOfPixel format) 0⟩)

/-- The formats whose pixels are made of 4-byte float channels. -/
def floatFormats : List Format := [.FLOAT, .FLOAT2, .FLOAT3, .FLOAT4]

/-- Modelled from the spec: `clear(value: float)` is valid only for the float
formats, where it broadcasts the value into every channel of every pixel; on
RGB888/RGBA8888 (or an uninitialized buffer) it fails with InvalidOperation
(`none`) and the buffer is untouched.  The float value is represented by its
4-byte encoding `valBytes`. -/
def clearFloat (buf : Buffer) (valBytes : List Nat) : Option Buffer :=
  if buf.format ∈ floatFormats then
    some { buf with
           data := (List.replicate (buf.width * buf.height * (getSizeOfPixel buf.format / 4))
                      valBytes).flatten }
  else
    none

/-- `getRgb888Buffer` (VariablePixelBuffer.h:75–79): `MNRY_ASSERT(mFormat ==
RGB888)` then reinterpret the storage as the typed view.  The assert-and-abort
is modelled as `none`; on success the view shares the buffer's representation. -/
def getRgb888Buffer (buf : Buffer) : Option Buffer :=
  if buf.format = .RGB888 then some buf else none

/-- `getRgba8888Buffer` (VariablePixelBuffer.h:86–90), assert modelled as `none`. -/
def getRgba8888Buffer (buf : Buffer) : Option Buffer :=
  if buf.format = .RGBA8888 then some buf else none

/-- `getFloatBuffer` (VariablePixelBuffer.h:97–101), assert modelled as `none`. -/
def getFloatBuffer (buf : Buffer) : Option Buffer :=
  if buf.format = .FLOAT then some buf else none

/-- `getFloat2Buffer` (VariablePixelBuffer.h:108–112), assert modelled as `none`. -/
def getFloat2Buffer (buf : Buffer) : Option Buffer :=
  if buf.format = .FLOAT2 then some buf else none

/-- `getFloat3Buffer` (VariablePixelBuffer.h:119–123), assert modelled as `none`. -/
def getFloat3Buffer (buf : Buffer) : Option Buffer :=
  if buf.format = .FLOAT3 then some buf else none

/-- `getFloat4Buffer` (VariablePixelBuffer.h:130–134), assert modelled as `none`. -/
def getFloat4Buffer (buf : Buffer) : Option Buffer :=
  if buf.format = .FLOAT4 then some buf else none

/-! ## Scene-variable schema (transcribed from SceneVariables.cc) -/

/-- Default of the `batch_tile_order` attribute (SceneVariables.cc:836–837):
`Int(4)`. -/
def sBatchTileOrderDefault : Int := 4

/-- Enum table of `batch_tile_order` as registered by the `setEnumValue`
calls at SceneVariables.cc:842–850. -/
def sBatchTileOrderEnum : List (Int × String) :=
  [(0, "top"), (1, "bottom"), (2, "left"), (3, "right"), (4, "morton"),
   (5, "random"), (6, "spiral square"), (7, "spiral rect"), (8, "morton shiftflip")]

/-- Default of the `progressive_tile_order` attribute (SceneVariables.cc:857–858). -/
def sProgressiveTileOrderDefault : Int := 4

/-- Enum table of `progressive_tile_order` (SceneVariables.cc:863–871). -/
def sProgressiveTileOrderEnum : List (Int × String) :=
  [(0, "top"), (1, "bottom"), (2, "left"), (3, "right"), (4, "morton"),
   (5, "random"), (6, "spiral square"), (7, "spiral rect"), (8, "morton shiftflip")]

/-- Default of the `checkpoint_tile_order` attribute (SceneVariables.cc:878–879). -/
def sCheckpointTileOrderDefault : Int := 4

/-- Enum table of `checkpoint_tile_order` (SceneVariables.cc:884–892). -/
def sCheckpointTileOrderEnum : List (Int × String) :=
  [(0, "top"), (1, "bottom"), (2, "left"), (3, "right"), (4, "morton"),
   (5, "random"), (6, "spiral square"), (7, "spiral rect"), (8, "morton shiftflip")]

/-- `SceneVariables::getTmpDir` transcribed from SceneVariables.cc:1331–1340.
The scene attribute value and the TMPDIR environment value are the two string
inputs.  The source runs `tmpDir.back()` unconditionally; `std::string::back()`
on an empty string is undefined behavior in C++, modelled here as `none`. -/
def getTmpDir (attrTmpDir envTMPDIR : String) : Option String :=
  let t0 := if attrTmpDir.isEmpty then envTMPDIR else attrTmpDir
  if t0.isEmpty then
    none
  else
    let t1 := if t0.back = '/' then t0.dropRight 1 else t0
    let t2 := if t1.isEmpty then "/tmp" else t1
    some t2

/-! ## Sparse tile codec and untiling

The pack/unpack/untile bodies are not under `src/`; the definitions below are
modelled from the spec (§4.1, §4.3, §6): a tile's packed bytes are its pixel
rows, row-major within the tile, contiguous, no header or padding; a packed
stream is the concatenation of the listed tiles' bytes in list order. -/

/-- A tile rectangle `[x0, x1) × [y0, y1)` in raster pixel coordinates
(spec §3: Tile). -/
structure Tile where
  x0 : Nat
  y0 : Nat
  x1 : Nat
  y1 : Nat
deriving DecidableEq, Repr

/-- Pixel area of a tile (spec §3). -/
def tileArea (t : Tile) : Nat := (t.x1 - t.x0) * (t.y1 - t.y0)

/-- Pixel `(x, y)` lies inside tile `t`. -/
def inTilePixel (t : Tile) (x y : Nat) : Prop :=
  t.x0 ≤ x ∧ x < t.x1 ∧ t.y0 ≤ y ∧ y < t.y1

instance (t : Tile) (x y : Nat) : Decidable (inTilePixel t x y) := by
  unfold inTilePixel; infer_instance

/-- Two tile rectangles share at least one pixel (interval intersection). -/
def tilesOverlap (a b : Tile) : Prop :=
  max a.x0 b.x0 < min a.x1 b.x1 ∧ max a.y0 b.y0 < min a.y1 b.y1

instance (a b : Tile) : Decidable (tilesOverlap a b) := by
  unfold tilesOverlap; infer_instance

/-- Tile `t` lies within a `w × h` buffer. -/
def tileInBounds (t : Tile) (w h : Nat) : Prop := t.x1 ≤ w ∧ t.y1 ≤ h

instance (t : Tile) (w h : Nat) : Decidable (tileInBounds t w h) := by
  unfold tileInBounds; infer_instance

/-- The bytes `[off, off+len)` of a byte arena. -/
def sliceBytes (data : List Nat) (off len : Nat) : List Nat :=
  (data.drop off).take len

/-- Overwrite `data[off …]` with `src` (a memcpy into the arena). -/
def writeBytes (data : List Nat) (off : Nat) (src : List Nat) : List Nat :=
  data.take off ++ src ++ data.drop (off + src.length)

/-- Byte offset of the start of tile row `y` (the byte of pixel `(t.x0, y)`)
in a raster arena of width `w` with `bpp` bytes per pixel. -/
def rowOff (w bpp : Nat) (t : Tile) (y : Nat) : Nat := (y * w + t.x0) * bpp

/-- Byte length of one tile row. -/
def rowLen (bpp : Nat) (t : Tile) : Nat := (t.x1 - t.x0) * bpp

/-- Byte index `i` of the raster arena falls inside tile `t`'s pixel region. -/
def inTileBytes (w bpp : Nat) (t : Tile) (i : Nat) : Prop :=
  ∃ r, r < t.y1 - t.y0 ∧
    rowOff w bpp t (t.y0 + r) ≤ i ∧ i < rowOff w bpp t (t.y0 + r) + rowLen bpp t

/-- Modelled from the spec: the packed bytes of the first `r` rows of tile
`t`, copied row-major from the raster arena `data`. -/
def packRows (data : List Nat) (w bpp : Nat) (t : Tile) : Nat → List Nat
  | 0 => []
  | r + 1 =>
      packRows data w bpp t r ++
        sliceBytes data (rowOff w bpp t (t.y0 + r)) (rowLen bpp t)

/-- All packed bytes of tile `t`. -/
def packTile (data : List Nat) (w bpp : Nat) (t : Tile) : List Nat :=
  packRows data w bpp t (t.y1 - t.y0)

/-- Concatenation of the listed tiles' packed bytes, in list order (spec §6:
no per-tile header, no padding). -/
def packBytes (data : List Nat) (w bpp : Nat) : List Tile → List Nat
  | [] => []
  | t :: ts => packTile data w bpp t ++ packBytes data w bpp ts

/-- Number of packed bytes of one tile. -/
def tileByteCount (bpp : Nat) (t : Tile) : Nat := tileArea t * bpp

/-- Modelled from the spec: `packSparseTiles(dst, tiles)` fails (no bytes
written) if the buffer is UNINITIALIZED or some tile exceeds its bounds;
otherwise it emits each listed tile's rows contiguously in list order.  The
destination is returned as the produced byte stream. -/
def packSparseTiles (buf : Buffer) (tiles : List Tile) : Option (List Nat) :=
  if buf.format = .UNINITIALIZED then none
  else if ∀ t ∈ tiles, tileInBounds t buf.width buf.height then
    some (packBytes buf.data buf.width (getSizeOfPixel buf.format) tiles)
  else none

/-- Scatter the first `r` rows of the packed bytes `src` into the raster
arena `d` at tile `t`'s rectangle. -/
def unpackRows (w bpp : Nat) (t : Tile) (src : List Nat) (d : List Nat) : Nat → List Nat
  | 0 => d
  | r + 1 =>
      writeBytes (unpackRows w bpp t src d r) (rowOff w bpp t (t.y0 + r))
        (sliceBytes src (r * rowLen bpp t) (rowLen bpp t))

/-- Scatter one whole packed tile into the raster arena. -/
def unpackTile (w bpp : Nat) (t : Tile) (src : List Nat) (d : List Nat) : List Nat :=
  unpackRows w bpp t src d (t.y1 - t.y0)

/-- Apply the listed tiles strictly in list order, each consuming its byte
count from the head of the stream. -/
def unpackGo (w bpp : Nat) : List Nat → List Nat → List Tile → List Nat
  | d, _, [] => d
  | d, src, t :: ts =>
      unpackGo w bpp (unpackTile w bpp t src d) (src.drop (tileByteCount bpp t)) ts

/-- Modelled from the spec: `unpackSparseTiles(src, tiles)` fails under the
same conditions as packing; otherwise it scatters each tile's bytes into the
buffer at the tile's rectangle, strictly in list order. -/
def unpackSparseTiles (buf : Buffer) (src : List Nat) (tiles : List Tile) : Option Buffer :=
  if buf.format = .UNINITIALIZED then none
  else if ∀ t ∈ tiles, tileInBounds t buf.width buf.height then
    some { buf with
           data := unpackGo buf.width (getSizeOfPixel buf.format) buf.data src tiles }
  else none

/-! ## Tiler and untiling (modelled from the spec, §4.1 untile and §4.2) -/

/-- The Tiler: image dimensions; the tile size is fixed at 8×8 pixels. -/
structure Tiler where
  width : Nat
  height : Nat
deriving DecidableEq, Repr

/-- Number of tile columns (edge tiles clipped). -/
def numTilesX (tiler : Tiler) : Nat := (tiler.width + 7) / 8

/-- Number of tile rows. -/
def numTilesY (tiler : Tiler) : Nat := (tiler.height + 7) / 8

/-- Total tile count. -/
def numTiles (tiler : Tiler) : Nat := numTilesX tiler * numTilesY tiler

/-- Rectangle of tile index `i` (row-major tile order, edge tiles clipped to
the image bounds). -/
def tilerRect (tiler : Tiler) (i : Nat) : Tile :=
  let tx := i % numTilesX tiler
  let ty := i / numTilesX tiler
  ⟨tx * 8, ty * 8, min (tx * 8 + 8) tiler.width, min (ty * 8 + 8) tiler.height⟩

/-- Pixel offset of tile `i`'s block in the tiled buffer: the sum of the
areas of the preceding tiles (tile blocks are contiguous, in row-major tile
order). -/
def tileOffset (tiler : Tiler) : Nat → Nat
  | 0 => 0
  | i + 1 => tileOffset tiler i + tileArea (tilerRect tiler i)

/-- Copy tile `i`'s pixel block from the tiled arena to its rectangle in the
raster arena. -/
def untileStep (w bpp : Nat) (tiledData : List Nat) (tiler : Tiler)
    (d : List Nat) (i : Nat) : List Nat :=
  unpackTile w bpp (tilerRect tiler i) (tiledData.drop (tileOffset tiler i * bpp)) d

/-- Untiling with an explicit tile-processing order `ord`. -/
def untileOrd (dst : Buffer) (tiledData : List Nat) (tiler : Tiler) (ord : List Nat) : Buffer :=
  { dst with
    data := ord.foldl (untileStep dst.width (getSizeOfPixel dst.format) tiledData tiler)
              dst.data }

/-- Modelled from the spec: `untile(tiledBuffer, tiler, parallel)` copies each
tile's block from the tiled buffer to its rectangle in `this`.  The
function's value is the sequential result (tile indices in row-major order);
a parallel run's nondeterministic completion order is modelled by
`ParallelUntileResult`. -/
def untile (dst : Buffer) (tiledBuffer : Buffer) (tiler : Tiler) (_parallel : Bool) : Buffer :=
  untileOrd dst tiledBuffer.data tiler (List.range (numTiles tiler))

/-- The possible outcomes of `untile(..., parallel=true)`: the independent
per-tile copies may complete in any order, i.e. in an arbitrary permutation
of the tile indices. -/
def ParallelUntileResult (dst : Buffer) (tiledBuffer : Buffer) (tiler : Tiler)
    (out : Buffer) : Prop :=
  ∃ ord, List.Perm ord (List.range (numTiles tiler)) ∧
    untileOrd dst tiledBuffer.data tiler ord = out

/-! ## Helper lemmas -/

theorem sliceBytes_length (data : List Nat) (off len : Nat) :
    (sliceBytes data off len).length = min len (data.length - off) := by
  simp [sliceBytes]

theorem sliceBytes_length_of_le (data : List Nat) (off len : Nat)
    (h : off + len ≤ data.length) : (sliceBytes data off len).length = len := by
  rw [sliceBytes_length]; omega

theorem sliceBytes_getElem (data : List Nat) (off len j : Nat) (hj : j < len) :
    (sliceBytes data off len)[j]? = data[off + j]? := by
  unfold sliceBytes
  rw [List.getElem?_take, if_pos hj, List.getElem?_drop]

theorem writeBytes_nil (data : List Nat) (off : Nat) :
    writeBytes data off [] = data := by
  simp [writeBytes]

theorem writeBytes_length (data src : List Nat) (off : Nat)
    (h : off + src.length ≤ data.length) :
    (writeBytes data off src).length = data.length := by
  simp only [writeBytes, List.length_append, List.length_take, List.length_drop]
  omega

theorem writeBytes_getElem_in (data src : List Nat) (off i : Nat)
    (h : off + src.length ≤ data.length) (h1 : off ≤ i) (h2 : i < off + src.length) :
    (writeBytes data off src)[i]? = src[i - off]? := by
  unfold writeBytes
  have hto : (List.take off data).length = off := by simp; omega
  rw [List.getElem?_append_left (by simp only [List.length_append, hto]; omega),
      List.getElem?_append_right (by omega : (List.take off data).length ≤ i), hto]

theorem writeBytes_getElem_out (data src : List Nat) (off i : Nat)
    (h : off + src.length ≤ data.length) (hout : i < off ∨ off + src.length ≤ i) :
    (writeBytes data off src)[i]? = data[i]? := by
  unfold writeBytes
  have hto : (List.take off data).length = off := by simp; omega
  rcases hout with hlt | hge
  · rw [List.getElem?_append_left (by simp only [List.length_append, hto]; omega),
        List.getElem?_append_left (by omega : i < (List.take off data).length),
        List.getElem?_take, if_pos hlt]
  · rw [List.getElem?_append_right
          (by simp only [List.length_append, hto]; omega :
            (List.take off data ++ src).length ≤ i)]
    rw [List.getElem?_drop]
    congr 1
    simp only [List.length_append, hto]
    omega

theorem getSizeOfPixel_pos (f : Format) (hf : f ≠ .UNINITIALIZED) :
    0 < getSizeOfPixel f := by
  cases f <;> first | decide | exact absurd rfl hf

theorem rowLen_pos_x (bpp : Nat) (t : Tile) (h : 0 < rowLen bpp t) : t.x0 < t.x1 := by
  unfold rowLen at h
  by_contra hc
  push_neg at hc
  have h0 : t.x1 - t.x0 = 0 := by omega
  rw [h0] at h
  simp at h

theorem rowOff_add_rowLen (w bpp : Nat) (t : Tile) (y : Nat) (hx : t.x0 ≤ t.x1) :
    rowOff w bpp t y + rowLen bpp t = (y * w + t.x1) * bpp := by
  unfold rowOff rowLen
  rw [← Nat.add_mul]
  congr 1
  omega

theorem rowEnd_le_total (w h bpp : Nat) (t : Tile) (y : Nat)
    (hbw : t.x1 ≤ w) (hy : y < h) :
    (y * w + t.x1) * bpp ≤ w * h * bpp := by
  apply Nat.mul_le_mul _ (le_refl bpp)
  calc y * w + t.x1 ≤ y * w + w := by omega
    _ = (y + 1) * w := by ring
    _ ≤ h * w := Nat.mul_le_mul (by omega) (le_refl w)
    _ = w * h := by ring

theorem row_in_bounds (w h bpp : Nat) (t : Tile) (r : Nat)
    (hbw : t.x1 ≤ w) (hbh : t.y1 ≤ h) (hr : r < t.y1 - t.y0) (hpos : 0 < rowLen bpp t) :
    rowOff w bpp t (t.y0 + r) + rowLen bpp t ≤ w * h * bpp := by
  have hx := rowLen_pos_x bpp t hpos
  rw [rowOff_add_rowLen w bpp t _ (le_of_lt hx)]
  exact rowEnd_le_total w h bpp t _ hbw (by omega)

theorem rowSlab_mono (w bpp : Nat) (t : Tile) (y y' : Nat)
    (hbw : t.x1 ≤ w) (hyy : y < y') :
    rowOff w bpp t y + rowLen bpp t ≤ rowOff w bpp t y' := by
  unfold rowOff rowLen
  rw [← Nat.add_mul]
  apply Nat.mul_le_mul _ (le_refl bpp)
  have h1 : (y + 1) * w ≤ y' * w := Nat.mul_le_mul (by omega) (le_refl w)
  have h2 : y * w + w = (y + 1) * w := by ring
  omega

theorem unpackRows_length (w h bpp : Nat) (t : Tile) (src d : List Nat)
    (hbw : t.x1 ≤ w) (hbh : t.y1 ≤ h) (hd : d.length = w * h * bpp) :
    ∀ R, R ≤ t.y1 - t.y0 → (unpackRows w bpp t src d R).length = w * h * bpp := by
  intro R
  induction R with
  | zero => intro _; exact hd
  | succ r ih =>
    intro hR
    have ihr := ih (by omega)
    simp only [unpackRows]
    by_cases hpos : 0 < rowLen bpp t
    · rw [writeBytes_length]
      · exact ihr
      · rw [ihr]
        have hrow := row_in_bounds w h bpp t r hbw hbh (by omega) hpos
        have hsl : (sliceBytes src (r * rowLen bpp t) (rowLen bpp t)).length ≤
            rowLen bpp t := by
          rw [sliceBytes_length]; omega
        omega
    · have h0 : rowLen bpp t = 0 := by omega
      rw [h0]
      simp only [sliceBytes, List.take_zero, writeBytes_nil]
      exact ihr

theorem unpackRows_getElem_out (w h bpp : Nat) (t : Tile) (src d : List Nat) (i : Nat)
    (hbw : t.x1 ≤ w) (hbh : t.y1 ≤ h) (hd : d.length = w * h * bpp) :
    ∀ R, R ≤ t.y1 - t.y0 →
      (∀ r, r < R → ¬(rowOff w bpp t (t.y0 + r) ≤ i ∧
        i < rowOff w bpp t (t.y0 + r) + rowLen bpp t)) →
      (unpackRows w bpp t src d R)[i]? = d[i]? := by
  intro R
  induction R with
  | zero => intro _ _; rfl
  | succ r ih =>
    intro hR hout
    simp only [unpackRows]
    by_cases hpos : 0 < rowLen bpp t
    · have hlen := unpackRows_length w h bpp t src d hbw hbh hd r (by omega)
      have hrow := row_in_bounds w h bpp t r hbw hbh (by omega) hpos
      have hsl : (sliceBytes src (r * rowLen bpp t) (rowLen bpp t)).length ≤
          rowLen bpp t := by
        rw [sliceBytes_length]; omega
      rw [writeBytes_getElem_out _ _ _ _ (by omega)]
      · exact ih (by omega) (fun r' hr' => hout r' (by omega))
      · have := hout r (by omega)
        omega
    · have h0 : rowLen bpp t = 0 := by omega
      rw [h0]
      simp only [sliceBytes, List.take_zero, writeBytes_nil]
      exact ih (by omega) (fun r' hr' => hout r' (by omega))

theorem unpackRows_getElem_in (w h bpp : Nat) (t : Tile) (src d : List Nat)
    (hbw : t.x1 ≤ w) (hbh : t.y1 ≤ h) (hd : d.length = w * h * bpp) :
    ∀ R, R ≤ t.y1 - t.y0 → ∀ r, r < R →
      (r + 1) * rowLen bpp t ≤ src.length →
      ∀ i, rowOff w bpp t (t.y0 + r) ≤ i →
        i < rowOff w bpp t (t.y0 + r) + rowLen bpp t →
        (unpackRows w bpp t src d R)[i]? =
          src[r * rowLen bpp t + (i - rowOff w bpp t (t.y0 + r))]? := by
  intro R
  induction R with
  | zero => intro _ r hr; omega
  | succ R' ih =>
    intro hR r hr hsrc i hin1 hin2
    have hLpos : 0 < rowLen bpp t := by omega
    simp only [unpackRows]
    have hlen := unpackRows_length w h bpp t src d hbw hbh hd R' (by omega)
    have hrowR' := row_in_bounds w h bpp t R' hbw hbh (by omega) hLpos
    rcases Nat.lt_succ_iff_lt_or_eq.mp hr with hlt | heq
    · -- the target row is an earlier row; the last write misses `i`
      have hmono := rowSlab_mono w bpp t (t.y0 + r) (t.y0 + R') hbw (by omega)
      have hsl : (sliceBytes src (R' * rowLen bpp t) (rowLen bpp t)).length ≤
          rowLen bpp t := by
        rw [sliceBytes_length]; omega
      rw [writeBytes_getElem_out _ _ _ _ (by omega) (by omega)]
      exact ih (by omega) r hlt hsrc i hin1 hin2
    · subst heq
      have hslfull : (sliceBytes src (r * rowLen bpp t) (rowLen bpp t)).length =
          rowLen bpp t := by
        apply sliceBytes_length_of_le
        calc r * rowLen bpp t + rowLen bpp t = (r + 1) * rowLen bpp t := by ring
          _ ≤ src.length := hsrc
      rw [writeBytes_getElem_in _ _ _ _ (by omega) hin1 (by omega),
          sliceBytes_getElem _ _ _ _ (by omega)]

theorem packRows_length (data : List Nat) (w h bpp : Nat) (t : Tile)
    (hbw : t.x1 ≤ w) (hbh : t.y1 ≤ h) (hdata : data.length = w * h * bpp) :
    ∀ R, R ≤ t.y1 - t.y0 → (packRows data w bpp t R).length = R * rowLen bpp t := by
  intro R
  induction R with
  | zero => intro _; simp [packRows]
  | succ r ih =>
    intro hR
    simp only [packRows, List.length_append]
    rw [ih (by omega)]
    by_cases hpos : 0 < rowLen bpp t
    · rw [sliceBytes_length_of_le]
      · ring
      · rw [hdata]
        exact row_in_bounds w h bpp t r hbw hbh (by omega) hpos
    · have h0 : rowLen bpp t = 0 := by omega
      rw [h0]
      simp [sliceBytes]

theorem packRows_getElem (data : List Nat) (w h bpp : Nat) (t : Tile)
    (hbw : t.x1 ≤ w) (hbh : t.y1 ≤ h) (hdata : data.length = w * h * bpp) :
    ∀ R, R ≤ t.y1 - t.y0 → ∀ r, r < R → ∀ j, j < rowLen bpp t →
      (packRows data w bpp t R)[r * rowLen bpp t + j]? =
        data[rowOff w bpp t (t.y0 + r) + j]? := by
  intro R
  induction R with
  | zero => intro _ r hr; omega
  | succ R' ih =>
    intro hR r hr j hj
    simp only [packRows]
    have hplen := packRows_length data w h bpp t hbw hbh hdata R' (by omega)
    rcases Nat.lt_succ_iff_lt_or_eq.mp hr with hlt | heq
    · rw [List.getElem?_append_left]
      · exact ih (by omega) r hlt j hj
      · rw [hplen]
        calc r * rowLen bpp t + j < r * rowLen bpp t + rowLen bpp t := by omega
          _ = (r + 1) * rowLen bpp t := by ring
          _ ≤ R' * rowLen bpp t := Nat.mul_le_mul (by omega) (le_refl _)
    · subst heq
      rw [List.getElem?_append_right (by rw [hplen]; omega)]
      rw [hplen, Nat.add_sub_cancel_left]
      exact sliceBytes_getElem data _ _ j hj

theorem tileByteCount_eq (bpp : Nat) (t : Tile) :
    tileByteCount bpp t = (t.y1 - t.y0) * rowLen bpp t := by
  unfold tileByteCount tileArea rowLen
  ring

theorem packTile_length (data : List Nat) (w h bpp : Nat) (t : Tile)
    (hbw : t.x1 ≤ w) (hbh : t.y1 ≤ h) (hdata : data.length = w * h * bpp) :
    (packTile data w bpp t).length = tileByteCount bpp t := by
  unfold packTile
  rw [packRows_length data w h bpp t hbw hbh hdata _ (le_refl _), tileByteCount_eq]

theorem sliceBytes_append_left (a b : List Nat) (off len : Nat)
    (h : off + len ≤ a.length) :
    sliceBytes (a ++ b) off len = sliceBytes a off len := by
  apply List.ext_getElem?
  intro j
  by_cases hj : j < len
  · rw [sliceBytes_getElem _ _ _ _ hj, sliceBytes_getElem _ _ _ _ hj,
        List.getElem?_append_left (by omega)]
  · have h1 : (sliceBytes (a ++ b) off len).length ≤ j := by
      rw [sliceBytes_length]; omega
    have h2 : (sliceBytes a off len).length ≤ j := by
      rw [sliceBytes_length]; omega
    rw [List.getElem?_eq_none h1, List.getElem?_eq_none h2]

theorem unpackRows_congr (w bpp : Nat) (t : Tile) (src src' d : List Nat) :
    ∀ R, (∀ r, r < R → sliceBytes src (r * rowLen bpp t) (rowLen bpp t) =
        sliceBytes src' (r * rowLen bpp t) (rowLen bpp t)) →
      unpackRows w bpp t src d R = unpackRows w bpp t src' d R := by
  intro R
  induction R with
  | zero => intro _; rfl
  | succ r ih =>
    intro hss
    simp only [unpackRows]
    rw [ih (fun r' hr' => hss r' (by omega)), hss r (by omega)]

theorem unpackTile_append (w bpp : Nat) (t : Tile) (a b d : List Nat)
    (ha : a.length = tileByteCount bpp t) :
    unpackTile w bpp t (a ++ b) d = unpackTile w bpp t a d := by
  unfold unpackTile
  apply unpackRows_congr
  intro r hr
  apply sliceBytes_append_left
  rw [ha, tileByteCount_eq]
  calc r * rowLen bpp t + rowLen bpp t = (r + 1) * rowLen bpp t := by ring
    _ ≤ (t.y1 - t.y0) * rowLen bpp t := Nat.mul_le_mul (by omega) (le_refl _)

theorem unpackTile_length (w h bpp : Nat) (t : Tile) (src d : List Nat)
    (hbw : t.x1 ≤ w) (hbh : t.y1 ≤ h) (hd : d.length = w * h * bpp) :
    (unpackTile w bpp t src d).length = w * h * bpp :=
  unpackRows_length w h bpp t src d hbw hbh hd _ (le_refl _)

theorem unpackTile_getElem_out (w h bpp : Nat) (t : Tile) (src d : List Nat) (i : Nat)
    (hbw : t.x1 ≤ w) (hbh : t.y1 ≤ h) (hd : d.length = w * h * bpp)
    (hout : ¬ inTileBytes w bpp t i) :
    (unpackTile w bpp t src d)[i]? = d[i]? :=
  unpackRows_getElem_out w h bpp t src d i hbw hbh hd _ (le_refl _)
    (fun r hr hc => hout ⟨r, hr, hc.1, hc.2⟩)

theorem unpackTile_getElem_in (w h bpp : Nat) (t : Tile) (src d : List Nat)
    (hbw : t.x1 ≤ w) (hbh : t.y1 ≤ h) (hd : d.length = w * h * bpp)
    (r : Nat) (hr : r < t.y1 - t.y0) (hsrc : (r + 1) * rowLen bpp t ≤ src.length)
    (i : Nat) (h1 : rowOff w bpp t (t.y0 + r) ≤ i)
    (h2 : i < rowOff w bpp t (t.y0 + r) + rowLen bpp t) :
    (unpackTile w bpp t src d)[i]? =
      src[r * rowLen bpp t + (i - rowOff w bpp t (t.y0 + r))]? :=
  unpackRows_getElem_in w h bpp t src d hbw hbh hd _ (le_refl _) r hr hsrc i h1 h2

theorem unpackTile_packTile (data : List Nat) (w h bpp : Nat) (t : Tile)
    (d : List Nat) (i : Nat)
    (hbw : t.x1 ≤ w) (hbh : t.y1 ≤ h)
    (hd : d.length = w * h * bpp) (hdata : data.length = w * h * bpp)
    (hin : inTileBytes w bpp t i) :
    (unpackTile w bpp t (packTile data w bpp t) d)[i]? = data[i]? := by
  obtain ⟨r, hr, h1, h2⟩ := hin
  have hptl := packTile_length data w h bpp t hbw hbh hdata
  rw [unpackTile_getElem_in w h bpp t _ d hbw hbh hd r hr
        (by rw [hptl, tileByteCount_eq]
            exact Nat.mul_le_mul (by omega) (le_refl _)) i h1 h2]
  unfold packTile
  rw [packRows_getElem data w h bpp t hbw hbh hdata _ (le_refl _) r hr _ (by omega)]
  congr 1
  omega

theorem unpackGo_length (w h bpp : Nat) :
    ∀ (tiles : List Tile) (d src : List Nat), (∀ t ∈ tiles, tileInBounds t w h) →
      d.length = w * h * bpp → (unpackGo w bpp d src tiles).length = w * h * bpp := by
  intro tiles
  induction tiles with
  | nil => intro d src _ hd; exact hd
  | cons t ts ih =>
    intro d src hb hd
    have hbt := hb t (List.mem_cons_self _ _)
    unfold tileInBounds at hbt
    simp only [unpackGo]
    exact ih _ _ (fun t' ht' => hb t' (List.mem_cons_of_mem _ ht'))
      (unpackTile_length w h bpp t src d hbt.1 hbt.2 hd)

theorem unpackGo_uncovered (w h bpp : Nat) :
    ∀ (tiles : List Tile) (d src : List Nat), (∀ t ∈ tiles, tileInBounds t w h) →
      d.length = w * h * bpp →
      ∀ i, (∀ t ∈ tiles, ¬ inTileBytes w bpp t i) →
        (unpackGo w bpp d src tiles)[i]? = d[i]? := by
  intro tiles
  induction tiles with
  | nil => intro d src _ _ i _; rfl
  | cons t ts ih =>
    intro d src hb hd i hnc
    have hbt := hb t (List.mem_cons_self _ _)
    unfold tileInBounds at hbt
    simp only [unpackGo]
    rw [ih _ _ (fun t' ht' => hb t' (List.mem_cons_of_mem _ ht'))
          (unpackTile_length w h bpp t src d hbt.1 hbt.2 hd) i
          (fun t' ht' => hnc t' (List.mem_cons_of_mem _ ht'))]
    exact unpackTile_getElem_out w h bpp t src d i hbt.1 hbt.2 hd
      (hnc t (List.mem_cons_self _ _))

theorem unpackGo_pack_covered (w h bpp : Nat) (data : List Nat)
    (hdata : data.length = w * h * bpp) :
    ∀ (tiles : List Tile) (d : List Nat), (∀ t ∈ tiles, tileInBounds t w h) →
      d.length = w * h * bpp →
      ∀ i, (∃ t ∈ tiles, inTileBytes w bpp t i) →
        (unpackGo w bpp d (packBytes data w bpp tiles) tiles)[i]? = data[i]? := by
  intro tiles
  induction tiles with
  | nil =>
    intro d _ _ i hc
    obtain ⟨t, ht, _⟩ := hc
    exact absurd ht (List.not_mem_nil t)
  | cons t ts ih =>
    intro d hb hd i hc
    have hbt := hb t (List.mem_cons_self _ _)
    unfold tileInBounds at hbt
    have hbs : ∀ t' ∈ ts, tileInBounds t' w h :=
      fun t' ht' => hb t' (List.mem_cons_of_mem _ ht')
    simp only [unpackGo, packBytes]
    have hptl := packTile_length data w h bpp t hbt.1 hbt.2 hdata
    rw [unpackTile_append w bpp t _ _ d hptl,
        show (packTile data w bpp t ++ packBytes data w bpp ts).drop (tileByteCount bpp t)
            = packBytes data w bpp ts by rw [← hptl]; exact List.drop_left _ _]
    have hd' := unpackTile_length w h bpp t (packTile data w bpp t) d hbt.1 hbt.2 hd
    by_cases hts : ∃ t' ∈ ts, inTileBytes w bpp t' i
    · exact ih _ hbs hd' i hts
    · have hti : inTileBytes w bpp t i := by
        obtain ⟨t', ht', hcov⟩ := hc
        rcases List.mem_cons.mp ht' with heq | hmem
        · exact heq ▸ hcov
        · exact absurd ⟨t', hmem, hcov⟩ hts
      push_neg at hts
      rw [unpackGo_uncovered w h bpp ts _ _ hbs hd' i hts]
      exact unpackTile_packTile data w h bpp t d i hbt.1 hbt.2 hd hdata hti

/-- Decompose a byte index of the raster arena into pixel coordinates and a
byte offset within the pixel. -/
theorem byte_decomp (w h bpp i : Nat) (hbpp : 0 < bpp) (hi : i < w * h * bpp) :
    ∃ x y k, x < w ∧ y < h ∧ k < bpp ∧ i = (y * w + x) * bpp + k := by
  have hw : 0 < w := by
    rcases Nat.eq_zero_or_pos w with h0 | h0
    · rw [h0] at hi; simp at hi
    · exact h0
  have hh : 0 < h := by
    rcases Nat.eq_zero_or_pos h with h0 | h0
    · rw [h0] at hi; simp at hi
    · exact h0
  refine ⟨(i / bpp) % w, (i / bpp) / w, i % bpp, Nat.mod_lt _ hw, ?_, Nat.mod_lt _ hbpp, ?_⟩
  · have hp : i / bpp < w * h := by
      rw [Nat.div_lt_iff_lt_mul hbpp]; exact hi
    rw [Nat.div_lt_iff_lt_mul hw, Nat.mul_comm h w]
    exact hp
  · have e1 := Nat.div_add_mod i bpp
    have e2 := Nat.div_add_mod (i / bpp) w
    rw [Nat.mul_comm] at e1
    rw [Nat.mul_comm] at e2
    calc i = i / bpp * bpp + i % bpp := by omega
      _ = (i / bpp / w * w + i / bpp % w) * bpp + i % bpp := by rw [e2]

/-- A pixel inside a tile gives a byte index inside the tile's row slab for
row `y - t.y0`. -/
theorem inTilePixel_slab (w bpp : Nat) (t : Tile) (x y k : Nat)
    (hp : inTilePixel t x y) (hk : k < bpp) :
    rowOff w bpp t (t.y0 + (y - t.y0)) ≤ (y * w + x) * bpp + k ∧
      (y * w + x) * bpp + k <
        rowOff w bpp t (t.y0 + (y - t.y0)) + rowLen bpp t := by
  obtain ⟨hx0, hx1, hy0, hy1⟩ := hp
  have hyy : t.y0 + (y - t.y0) = y := by omega
  constructor
  · rw [hyy]
    unfold rowOff
    exact le_trans (Nat.mul_le_mul (by omega : y * w + t.x0 ≤ y * w + x) (le_refl bpp))
      (Nat.le_add_right _ k)
  · rw [hyy, rowOff_add_rowLen w bpp t y (by omega)]
    calc (y * w + x) * bpp + k < (y * w + x) * bpp + bpp := by omega
      _ = (y * w + x + 1) * bpp := by ring
      _ ≤ (y * w + t.x1) * bpp := Nat.mul_le_mul (by omega) (le_refl _)

/-- A pixel inside a tile gives a byte index inside the tile's byte region. -/
theorem inTilePixel_to_bytes (w bpp : Nat) (t : Tile) (x y k : Nat)
    (hp : inTilePixel t x y) (hk : k < bpp) :
    inTileBytes w bpp t ((y * w + x) * bpp + k) := by
  have hs := inTilePixel_slab w bpp t x y k hp hk
  exact ⟨y - t.y0, by obtain ⟨_, _, h3, h4⟩ := hp; omega, hs.1, hs.2⟩

/-- Evaluation of a successful `unpackSparseTiles`. -/
theorem unpackSparseTiles_eq (buf : Buffer) (src : List Nat) (tiles : List Tile)
    (hfmt : buf.format ≠ .UNINITIALIZED)
    (hb : ∀ t ∈ tiles, tileInBounds t buf.width buf.height) :
    unpackSparseTiles buf src tiles =
      some { buf with
             data := unpackGo buf.width (getSizeOfPixel buf.format) buf.data src tiles } := by
  unfold unpackSparseTiles
  rw [if_neg hfmt, if_pos hb]

/-- Bytes of a flattened replicate: element `k` of block `j`. -/
theorem flatten_replicate_getElem (l : List Nat) :
    ∀ (n j : Nat), j < n → ∀ k, k < l.length →
      ((List.replicate n l).flatten)[l.length * j + k]? = l[k]? := by
  intro n
  induction n with
  | zero => intro j hj; omega
  | succ m ih =>
    intro j hj k hk
    rw [List.replicate_succ, List.flatten_cons]
    cases j with
    | zero =>
      rw [Nat.mul_zero, Nat.zero_add, List.getElem?_append_left hk]
    | succ j' =>
      have h1 : l.length * (j' + 1) + k = l.length + (l.length * j' + k) := by ring
      rw [h1, List.getElem?_append_right (Nat.le_add_right _ _), Nat.add_sub_cancel_left]
      exact ih j' (by omega) k hk

/-- Length of a flattened replicate. -/
theorem flatten_replicate_length (l : List Nat) (n : Nat) :
    ((List.replicate n l).flatten).length = n * l.length := by
  induction n with
  | zero => simp
  | succ m ih =>
    rw [List.replicate_succ, List.flatten_cons, List.length_append, ih]
    ring

/-! ### Untiler lemmas -/

theorem tilerRect_x0 (tiler : Tiler) (i : Nat) :
    (tilerRect tiler i).x0 = (i % numTilesX tiler) * 8 := rfl

theorem tilerRect_y0 (tiler : Tiler) (i : Nat) :
    (tilerRect tiler i).y0 = (i / numTilesX tiler) * 8 := rfl

theorem tilerRect_x1 (tiler : Tiler) (i : Nat) :
    (tilerRect tiler i).x1 = min ((i % numTilesX tiler) * 8 + 8) tiler.width := rfl

theorem tilerRect_y1 (tiler : Tiler) (i : Nat) :
    (tilerRect tiler i).y1 = min ((i / numTilesX tiler) * 8 + 8) tiler.height := rfl

theorem tilerRect_inBounds (tiler : Tiler) (i : Nat) :
    tileInBounds (tilerRect tiler i) tiler.width tiler.height :=
  ⟨min_le_right _ _, min_le_right _ _⟩

theorem unpackRows_rowLen_zero (w bpp : Nat) (t : Tile) (src d : List Nat)
    (h0 : rowLen bpp t = 0) :
    ∀ R, unpackRows w bpp t src d R = d := by
  intro R
  induction R with
  | zero => rfl
  | succ r ih =>
    simp only [unpackRows]
    rw [h0]
    simp only [sliceBytes, List.take_zero]
    rw [writeBytes_nil, ih]

theorem numTilesX_pos_of_lt (tiler : Tiler) (i : Nat) (hi : i < numTiles tiler) :
    0 < numTilesX tiler := by
  by_contra h0
  push_neg at h0
  have hz : numTilesX tiler = 0 := by omega
  have : numTiles tiler = 0 := by
    unfold numTiles
    rw [hz]
    simp
  omega

/-- For a tile index past the end, the untile step is the identity: the
clipped rectangle is empty. -/
theorem untileStep_id_of_ge (w bpp : Nat) (tiledData : List Nat) (tiler : Tiler)
    (d : List Nat) (i : Nat) (hi : numTiles tiler ≤ i) :
    untileStep w bpp tiledData tiler d i = d := by
  by_cases hnx : 0 < numTilesX tiler
  · -- the row range of the clipped rectangle is empty
    have hty : numTilesY tiler ≤ i / numTilesX tiler := by
      rw [Nat.le_div_iff_mul_le hnx]
      calc numTilesY tiler * numTilesX tiler
          = numTilesX tiler * numTilesY tiler := by ring
        _ = numTiles tiler := rfl
        _ ≤ i := hi
    have hy0 : tiler.height ≤ (i / numTilesX tiler) * 8 := by
      have h8 : numTilesY tiler * 8 ≥ tiler.height := by
        unfold numTilesY
        omega
      have := Nat.mul_le_mul hty (le_refl 8)
      omega
    have hR : (tilerRect tiler i).y1 - (tilerRect tiler i).y0 = 0 := by
      rw [tilerRect_y0, tilerRect_y1]
      omega
    unfold untileStep unpackTile
    rw [hR]
    rfl
  · have hw0 : tiler.width = 0 := by
      unfold numTilesX at hnx
      omega
    have hL : rowLen bpp (tilerRect tiler i) = 0 := by
      unfold rowLen
      rw [tilerRect_x0, tilerRect_x1, hw0]
      simp
    unfold untileStep unpackTile
    exact unpackRows_rowLen_zero _ _ _ _ _ hL _

/-- Two in-range tile indices whose rectangles share a pixel are equal: the
tiler's rectangles partition the image. -/
theorem tilerRect_pixel_eq (tiler : Tiler) (i j x y : Nat)
    (hi : i < numTiles tiler) (hj : j < numTiles tiler)
    (hx : inTilePixel (tilerRect tiler i) x y)
    (hy : inTilePixel (tilerRect tiler j) x y) : i = j := by
  have hnx := numTilesX_pos_of_lt tiler i hi
  obtain ⟨ha1, ha2, ha3, ha4⟩ := hx
  obtain ⟨hb1, hb2, hb3, hb4⟩ := hy
  rw [tilerRect_x0] at ha1 hb1
  rw [tilerRect_x1] at ha2 hb2
  rw [tilerRect_y0] at ha3 hb3
  rw [tilerRect_y1] at ha4 hb4
  have ha2' : x < (i % numTilesX tiler) * 8 + 8 := lt_of_lt_of_le ha2 (min_le_left _ _)
  have hb2' : x < (j % numTilesX tiler) * 8 + 8 := lt_of_lt_of_le hb2 (min_le_left _ _)
  have ha4' : y < (i / numTilesX tiler) * 8 + 8 := lt_of_lt_of_le ha4 (min_le_left _ _)
  have hb4' : y < (j / numTilesX tiler) * 8 + 8 := lt_of_lt_of_le hb4 (min_le_left _ _)
  have hmx : i % numTilesX tiler = j % numTilesX tiler := by omega
  have hdx : i / numTilesX tiler = j / numTilesX tiler := by omega
  have di := Nat.div_add_mod i (numTilesX tiler)
  have dj := Nat.div_add_mod j (numTilesX tiler)
  rw [hdx, hmx] at di
  omega

/-- A byte index inside a tile's byte region determines a pixel of the tile. -/
theorem inTileBytes_to_pixel (w bpp : Nat) (t : Tile) (b : Nat)
    (hbw : t.x1 ≤ w) (hbpp : 0 < bpp) (hin : inTileBytes w bpp t b) :
    inTilePixel t ((b / bpp) % w) ((b / bpp) / w) := by
  obtain ⟨r, hr, h1, h2⟩ := hin
  have hL : 0 < rowLen bpp t := by omega
  have hx01 := rowLen_pos_x bpp t hL
  have hw : 0 < w := by omega
  have hp1 : (t.y0 + r) * w + t.x0 ≤ b / bpp := by
    rw [Nat.le_div_iff_mul_le hbpp]
    exact h1
  have hp2 : b / bpp < (t.y0 + r) * w + t.x1 := by
    rw [Nat.div_lt_iff_lt_mul hbpp]
    rw [← rowOff_add_rowLen w bpp t (t.y0 + r) (le_of_lt hx01)]
    exact h2
  have hcm : w * (t.y0 + r) = (t.y0 + r) * w := Nat.mul_comm _ _
  have hdm := (Nat.div_mod_unique hw (a := b / bpp) (d := t.y0 + r)
    (c := b / bpp - (t.y0 + r) * w)).mpr (by constructor <;> omega)
  refine ⟨?_, ?_, ?_, ?_⟩
  · rw [hdm.2]; omega
  · rw [hdm.2]; omega
  · rw [hdm.1]; omega
  · rw [hdm.1]; omega

/-- Byte regions of distinct in-range tiles are disjoint. -/
theorem tilerRegion_disjoint (tiler : Tiler) (bpp : Nat) (i j b : Nat)
    (hbpp : 0 < bpp) (hi : i < numTiles tiler) (hj : j < numTiles tiler)
    (hqi : inTileBytes tiler.width bpp (tilerRect tiler i) b)
    (hqj : inTileBytes tiler.width bpp (tilerRect tiler j) b) : i = j := by
  have hpi := inTileBytes_to_pixel tiler.width bpp (tilerRect tiler i) b
    (tilerRect_inBounds tiler i).1 hbpp hqi
  have hpj := inTileBytes_to_pixel tiler.width bpp (tilerRect tiler j) b
    (tilerRect_inBounds tiler j).1 hbpp hqj
  exact tilerRect_pixel_eq tiler i j _ _ hi hj hpi hpj

theorem tileOffset_mono (tiler : Tiler) : ∀ a b, a ≤ b →
    tileOffset tiler a ≤ tileOffset tiler b := by
  intro a b
  induction b with
  | zero =>
    intro hab
    have ha0 : a = 0 := by omega
    rw [ha0]
  | succ b' ih =>
    intro hab
    rcases Nat.lt_succ_iff_lt_or_eq.mp (Nat.lt_succ_of_le hab) with hlt | heq
    · calc tileOffset tiler a ≤ tileOffset tiler b' := ih (by omega)
        _ ≤ tileOffset tiler (b' + 1) := by
            simp only [tileOffset]
            omega
    · rw [heq]

theorem untileStep_length (bpp : Nat) (tiledData : List Nat) (tiler : Tiler)
    (d : List Nat) (i : Nat)
    (hd : d.length = tiler.width * tiler.height * bpp) :
    (untileStep tiler.width bpp tiledData tiler d i).length =
      tiler.width * tiler.height * bpp :=
  unpackTile_length tiler.width tiler.height bpp (tilerRect tiler i) _ d
    (tilerRect_inBounds tiler i).1 (tilerRect_inBounds tiler i).2 hd

theorem untileStep_getElem_out (bpp : Nat) (tiledData : List Nat) (tiler : Tiler)
    (d : List Nat) (i b : Nat)
    (hd : d.length = tiler.width * tiler.height * bpp)
    (hout : ¬ inTileBytes tiler.width bpp (tilerRect tiler i) b) :
    (untileStep tiler.width bpp tiledData tiler d i)[b]? = d[b]? :=
  unpackTile_getElem_out tiler.width tiler.height bpp (tilerRect tiler i) _ d b
    (tilerRect_inBounds tiler i).1 (tilerRect_inBounds tiler i).2 hd hout

theorem untileStep_getElem_in (bpp : Nat) (tiledData : List Nat) (tiler : Tiler)
    (d : List Nat) (i b r : Nat)
    (hd : d.length = tiler.width * tiler.height * bpp)
    (htl : tiledData.length = tileOffset tiler (numTiles tiler) * bpp)
    (hi : i < numTiles tiler)
    (hr : r < (tilerRect tiler i).y1 - (tilerRect tiler i).y0)
    (h1 : rowOff tiler.width bpp (tilerRect tiler i) ((tilerRect tiler i).y0 + r) ≤ b)
    (h2 : b < rowOff tiler.width bpp (tilerRect tiler i) ((tilerRect tiler i).y0 + r) +
        rowLen bpp (tilerRect tiler i)) :
    (untileStep tiler.width bpp tiledData tiler d i)[b]? =
      tiledData[tileOffset tiler i * bpp +
        (r * rowLen bpp (tilerRect tiler i) +
          (b - rowOff tiler.width bpp (tilerRect tiler i)
            ((tilerRect tiler i).y0 + r)))]? := by
  have hsrc : (r + 1) * rowLen bpp (tilerRect tiler i) ≤
      (tiledData.drop (tileOffset tiler i * bpp)).length := by
    rw [List.length_drop, htl]
    have e1 : tileOffset tiler (i + 1) =
        tileOffset tiler i + tileArea (tilerRect tiler i) := rfl
    have e2 := tileOffset_mono tiler (i + 1) (numTiles tiler) hi
    have e3 : (r + 1) * rowLen bpp (tilerRect tiler i) ≤
        tileArea (tilerRect tiler i) * bpp := by
      calc (r + 1) * rowLen bpp (tilerRect tiler i)
          ≤ ((tilerRect tiler i).y1 - (tilerRect tiler i).y0) *
              rowLen bpp (tilerRect tiler i) := Nat.mul_le_mul (by omega) (le_refl _)
        _ = tileByteCount bpp (tilerRect tiler i) := (tileByteCount_eq _ _).symm
        _ = tileArea (tilerRect tiler i) * bpp := rfl
    have e4 : (tileOffset tiler i + tileArea (tilerRect tiler i)) * bpp ≤
        tileOffset tiler (numTiles tiler) * bpp :=
      Nat.mul_le_mul (by rw [← e1]; exact e2) (le_refl _)
    rw [Nat.add_mul] at e4
    omega
  unfold untileStep
  rw [unpackTile_getElem_in tiler.width tiler.height bpp _ _ d
      (tilerRect_inBounds tiler i).1 (tilerRect_inBounds tiler i).2 hd r hr hsrc b h1 h2,
      List.getElem?_drop]

theorem untileStep_comm (bpp : Nat) (tiledData : List Nat) (tiler : Tiler)
    (hbpp : 0 < bpp)
    (htl : tiledData.length = tileOffset tiler (numTiles tiler) * bpp)
    (d : List Nat) (hd : d.length = tiler.width * tiler.height * bpp) (a b : Nat) :
    untileStep tiler.width bpp tiledData tiler
        (untileStep tiler.width bpp tiledData tiler d a) b =
      untileStep tiler.width bpp tiledData tiler
        (untileStep tiler.width bpp tiledData tiler d b) a := by
  by_cases hab : a = b
  · rw [hab]
  by_cases hA : numTiles tiler ≤ a
  · rw [untileStep_id_of_ge _ _ _ _ _ a hA, untileStep_id_of_ge _ _ _ _ _ a hA]
  push_neg at hA
  by_cases hB : numTiles tiler ≤ b
  · rw [untileStep_id_of_ge _ _ _ _ _ b hB, untileStep_id_of_ge _ _ _ _ _ b hB]
  push_neg at hB
  have hda := untileStep_length bpp tiledData tiler d a hd
  have hdb := untileStep_length bpp tiledData tiler d b hd
  apply List.ext_getElem?
  intro q
  by_cases hqa : inTileBytes tiler.width bpp (tilerRect tiler a) q
  · have hqb : ¬ inTileBytes tiler.width bpp (tilerRect tiler b) q :=
      fun hqb => hab (tilerRegion_disjoint tiler bpp a b q hbpp hA hB hqa hqb)
    obtain ⟨r, hr, h1, h2⟩ := hqa
    rw [untileStep_getElem_out bpp tiledData tiler _ b q hda hqb,
        untileStep_getElem_in bpp tiledData tiler d a q r hd htl hA hr h1 h2,
        untileStep_getElem_in bpp tiledData tiler _ a q r hdb htl hA hr h1 h2]
  · by_cases hqb : inTileBytes tiler.width bpp (tilerRect tiler b) q
    · obtain ⟨r, hr, h1, h2⟩ := hqb
      rw [untileStep_getElem_in bpp tiledData tiler _ b q r hda htl hB hr h1 h2,
          untileStep_getElem_out bpp tiledData tiler _ a q hdb hqa,
          untileStep_getElem_in bpp tiledData tiler d b q r hd htl hB hr h1 h2]
    · rw [untileStep_getElem_out bpp tiledData tiler _ b q hda hqb,
          untileStep_getElem_out bpp tiledData tiler d a q hd hqa,
          untileStep_getElem_out bpp tiledData tiler _ a q hdb hqa,
          untileStep_getElem_out bpp tiledData tiler d b q hd hqb]

/-- Folding commuting updates over any permutation of a list gives the same
result, given an invariant preserved by the updates under which they
commute. -/
theorem foldl_perm_of_comm {α β : Type} (P : β → Prop) (f : β → α → β)
    (hpres : ∀ z a, P z → P (f z a))
    (hcomm : ∀ a b z, P z → f (f z a) b = f (f z b) a) :
    ∀ {l l' : List α}, List.Perm l l' → ∀ z, P z →
      List.foldl f z l = List.foldl f z l' := by
  intro l l' hp
  induction hp with
  | nil => intro z _; rfl
  | cons x p ih =>
    intro z hz
    simp only [List.foldl_cons]
    exact ih (f z x) (hpres z x hz)
  | swap x y l =>
    intro z hz
    simp only [List.foldl_cons]
    rw [hcomm y x z hz]
  | trans p1 p2 ih1 ih2 =>
    intro z hz
    rw [ih1 z hz, ih2 z hz]

/-- C4: the per-format pixel size is the fixed total table
(3, 4, 4, 8, 12, 16 bytes for RGB888, RGBA8888, FLOAT, FLOAT2, FLOAT3,
FLOAT4) — a pure function, hence unchanging at runtime — and after a
successful `init(F, w, h)` the backing arena size equals
`w*h*getSizeOfPixel F`. -/
theorem getSizeOfPixel_table_and_arena (f : Format) (w h : Nat) (buf : Buffer)
    (hf : f ≠ .UNINITIALIZED) (hw : 0 < w) (hh : 0 < h)
    (hov : w * h * getSizeOfPixel f < 2 ^ 64) :
    (getSizeOfPixel .RGB888 = 3 ∧ getSizeOfPixel .RGBA8888 = 4 ∧
     getSizeOfPixel .FLOAT = 4 ∧ getSizeOfPixel .FLOAT2 = 8 ∧
     getSizeOfPixel .FLOAT3 = 12 ∧ getSizeOfPixel .FLOAT4 = 16) ∧
    (bufferInit buf f w h).1 = true ∧
    (bufferInit buf f w h).2.data.length = w * h * getSizeOfPixel f := by
  have hcond : ¬(f = .UNINITIALIZED ∨ w = 0 ∨ h = 0 ∨
      2 ^ 64 ≤ w * h * getSizeOfPixel f) := by
    push_neg
    exact ⟨hf, by omega, by omega, by omega⟩
  refine ⟨by decide, ?_, ?_⟩
  · unfold bufferInit
    rw [if_neg hcond]
  · unfold bufferInit
    rw [if_neg hcond]
    simp

/-- Witness for C4 at FLOAT, 2×2. -/
theorem getSizeOfPixel_table_and_arena_witness :
    (bufferInit emptyBuffer .FLOAT 2 2).1 = true ∧
    (bufferInit emptyBuffer .FLOAT 2 2).2.data.length = 2 * 2 * getSizeOfPixel .FLOAT :=
  (getSizeOfPixel_table_and_arena .FLOAT 2 2 emptyBuffer (by decide) (by decide)
    (by decide) (by decide)).2

/-- C5: `init(format, w, h)` fails (returns false, state unchanged) exactly
when the format is UNINITIALIZED, or a dimension is zero, or the allocation
size computation overflows; otherwise it replaces the storage with a fresh
`w*h*bytesPerPixel(format)`-byte arena and returns true. -/
theorem bufferInit_spec (buf : Buffer) (f : Format) (w h : Nat) :
    ((f = .UNINITIALIZED ∨ w = 0 ∨ h = 0 ∨ 2 ^ 64 ≤ w * h * getSizeOfPixel f) →
       bufferInit buf f w h = (false, buf)) ∧
    (f ≠ .UNINITIALIZED → w ≠ 0 → h ≠ 0 → w * h * getSizeOfPixel f < 2 ^ 64 →
       bufferInit buf f w h =
         (true, ⟨f, w, h, List.replicate (w * h * getSizeOfPixel f) 0⟩)) := by
  constructor
  · intro hcond
    unfold bufferInit
    rw [if_pos hcond]
  · intro h1 h2 h3 h4
    have hcond : ¬(f = .UNINITIALIZED ∨ w = 0 ∨ h = 0 ∨
        2 ^ 64 ≤ w * h * getSizeOfPixel f) := by
      push_neg
      exact ⟨h1, h2, h3, by omega⟩
    unfold bufferInit
    rw [if_neg hcond]

/-- Witness for C5: the failing branch at UNINITIALIZED and the successful
branch at FLOAT 2×3. -/
theorem bufferInit_spec_witness :
    bufferInit emptyBuffer .UNINITIALIZED 4 4 = (false, emptyBuffer) ∧
    bufferInit emptyBuffer .FLOAT 2 3 = (true, ⟨.FLOAT, 2, 3, List.replicate 24 0⟩) :=
  ⟨(bufferInit_spec emptyBuffer .UNINITIALIZED 4 4).1 (Or.inl rfl),
   (bufferInit_spec emptyBuffer .FLOAT 2 3).2 (by decide) (by decide) (by decide) (by decide)⟩

/-- C6: `clear(value: float)` fails (InvalidOperation, buffer untouched) on
the integer-packed formats RGB888/RGBA8888, and on the float formats writes
the value's 4 bytes into every channel of every pixel. -/
theorem clearFloat_spec (buf : Buffer) (valBytes : List Nat)
    (hv : valBytes.length = 4) :
    ((buf.format = .RGB888 ∨ buf.format = .RGBA8888) → clearFloat buf valBytes = none) ∧
    (buf.format ∈ floatFormats →
      ∃ out, clearFloat buf valBytes = some out ∧
        out.format = buf.format ∧ out.width = buf.width ∧ out.height = buf.height ∧
        out.data.length = buf.width * buf.height * getSizeOfPixel buf.format ∧
        ∀ c, c < buf.width * buf.height * (getSizeOfPixel buf.format / 4) →
          ∀ k, k < 4 → out.data[4 * c + k]? = valBytes[k]?) := by
  constructor
  · intro hfmt
    have : buf.format ∉ floatFormats := by
      rcases hfmt with h | h <;> simp [floatFormats, h]
    simp [clearFloat, this]
  · intro hfmt
    refine ⟨{ buf with
              data := (List.replicate (buf.width * buf.height *
                        (getSizeOfPixel buf.format / 4)) valBytes).flatten },
            by simp [clearFloat, hfmt], rfl, rfl, rfl, ?_, ?_⟩
    · show ((List.replicate _ valBytes).flatten).length = _
      rw [flatten_replicate_length, hv]
      have : getSizeOfPixel buf.format / 4 * 4 = getSizeOfPixel buf.format := by
        simp only [floatFormats, List.mem_cons, List.not_mem_nil, or_false] at hfmt
        rcases hfmt with h | h | h | h <;> rw [h] <;> rfl
      calc buf.width * buf.height * (getSizeOfPixel buf.format / 4) * 4
          = buf.width * buf.height * (getSizeOfPixel buf.format / 4 * 4) := by ring
        _ = buf.width * buf.height * getSizeOfPixel buf.format := by rw [this]
    · intro c hc k hk
      show ((List.replicate _ valBytes).flatten)[4 * c + k]? = _
      have h4 : 4 * c + k = valBytes.length * c + k := by rw [hv]
      rw [h4]
      exact flatten_replicate_getElem valBytes _ c hc k (by omega)

/-- Witness for C6: RGB888 rejection and a FLOAT2 broadcast at 1×1. -/
theorem clearFloat_spec_witness :
    clearFloat (zeroBuffer .RGB888 1 1) [9, 8, 7, 6] = none :=
  (clearFloat_spec (zeroBuffer .RGB888 1 1) [9, 8, 7, 6] (by decide)).1 (Or.inl rfl)

/-- C8: each typed view accessor asserts that the buffer's format equals the
format the view is for (MNRY_ASSERT, modelled as `none` on failure), so a
view is returned exactly when the format matches. -/
theorem view_accessors_assert_format (buf : Buffer) :
    ((getRgb888Buffer buf).isSome ↔ buf.format = .RGB888) ∧
    ((getRgba8888Buffer buf).isSome ↔ buf.format = .RGBA8888) ∧
    ((getFloatBuffer buf).isSome ↔ buf.format = .FLOAT) ∧
    ((getFloat2Buffer buf).isSome ↔ buf.format = .FLOAT2) ∧
    ((getFloat3Buffer buf).isSome ↔ buf.format = .FLOAT3) ∧
    ((getFloat4Buffer buf).isSome ↔ buf.format = .FLOAT4) := by
  refine ⟨?_, ?_, ?_, ?_, ?_, ?_⟩ <;>
    · simp only [getRgb888Buffer, getRgba8888Buffer, getFloatBuffer, getFloat2Buffer,
        getFloat3Buffer, getFloat4Buffer]
      split <;> simp [*]

/-- C9: the tile-visit-order enumeration consists of exactly the nine policies
top, bottom, left, right, morton, random, spiral square, spiral rect,
morton shiftflip at codes 0–8 in that order, identically for the batch,
progressive and checkpoint attributes, with morton (code 4) as the default. -/
theorem tileOrder_enum_spec :
    sBatchTileOrderEnum =
      [(0, "top"), (1, "bottom"), (2, "left"), (3, "right"), (4, "morton"),
       (5, "random"), (6, "spiral square"), (7, "spiral rect"), (8, "morton shiftflip")] ∧
    sProgressiveTileOrderEnum = sBatchTileOrderEnum ∧
    sCheckpointTileOrderEnum = sBatchTileOrderEnum ∧
    sBatchTileOrderEnum.length = 9 ∧
    (sBatchTileOrderEnum.map Prod.fst) = [0, 1, 2, 3, 4, 5, 6, 7, 8] ∧
    sBatchTileOrderDefault = 4 ∧ sProgressiveTileOrderDefault = 4 ∧
    sCheckpointTileOrderDefault = 4 ∧
    sBatchTileOrderEnum.lookup sBatchTileOrderDefault = some "morton" := by
  refine ⟨rfl, rfl, rfl, rfl, rfl, rfl, rfl, rfl, rfl⟩

/-- C1: for an initialized buffer and a TileList whose entries are pairwise
non-overlapping, lie within the buffer bounds and together cover the whole
buffer, `packSparseTiles` followed by `unpackSparseTiles` of the produced
stream into a freshly zero-filled buffer of the same format and dimensions
reproduces the original buffer byte-for-byte. -/
theorem packUnpackSparseTiles_roundtrip (buf : Buffer) (tiles : List Tile)
    (hfmt : buf.format ≠ .UNINITIALIZED)
    (hlen : buf.data.length = buf.width * buf.height * getSizeOfPixel buf.format)
    (hbounds : ∀ t ∈ tiles, tileInBounds t buf.width buf.height)
    (hdisj : List.Pairwise (fun a b => ¬ tilesOverlap a b) tiles)
    (hcover : ∀ x, x < buf.width → ∀ y, y < buf.height → ∃ t ∈ tiles, inTilePixel t x y) :
    ∃ packed, packSparseTiles buf tiles = some packed ∧
      unpackSparseTiles (zeroBuffer buf.format buf.width buf.height) packed tiles =
        some buf := by
  have hbpp := getSizeOfPixel_pos buf.format hfmt
  refine ⟨packBytes buf.data buf.width (getSizeOfPixel buf.format) tiles, ?_, ?_⟩
  · unfold packSparseTiles
    rw [if_neg hfmt, if_pos hbounds]
  · rw [unpackSparseTiles_eq (zeroBuffer buf.format buf.width buf.height) _ tiles hfmt
        hbounds]
    refine congrArg some ?_
    have hzlen : (List.replicate (buf.width * buf.height * getSizeOfPixel buf.format)
        0).length = buf.width * buf.height * getSizeOfPixel buf.format :=
      List.length_replicate _ _
    have hdata_eq : unpackGo buf.width (getSizeOfPixel buf.format)
        (List.replicate (buf.width * buf.height * getSizeOfPixel buf.format) 0)
        (packBytes buf.data buf.width (getSizeOfPixel buf.format) tiles) tiles
          = buf.data := by
      apply List.ext_getElem?
      intro i
      by_cases hiN : i < buf.width * buf.height * getSizeOfPixel buf.format
      · obtain ⟨x, y, k, hx, hy, hk, hieq⟩ :=
          byte_decomp buf.width buf.height _ i hbpp hiN
        subst hieq
        obtain ⟨t, ht, hpix⟩ := hcover x hx y hy
        exact unpackGo_pack_covered buf.width buf.height _ buf.data hlen tiles _
          hbounds hzlen _ ⟨t, ht, inTilePixel_to_bytes buf.width _ t x y k hpix hk⟩
      · rw [List.getElem?_eq_none
              (by rw [unpackGo_length buf.width buf.height _ tiles _ _ hbounds hzlen]
                  omega),
            List.getElem?_eq_none (by rw [hlen]; omega)]
    show ({ zeroBuffer buf.format buf.width buf.height with
            data := unpackGo buf.width (getSizeOfPixel buf.format)
              (List.replicate (buf.width * buf.height * getSizeOfPixel buf.format) 0)
              (packBytes buf.data buf.width (getSizeOfPixel buf.format) tiles) tiles } :
          Buffer) = buf
    rw [hdata_eq]
    exact rfl

/-- Witness for C1: a 2×1 FLOAT buffer split into two 1×1 tiles. -/
theorem packUnpackSparseTiles_roundtrip_witness :
    ∃ packed,
      packSparseTiles ⟨.FLOAT, 2, 1, [1, 2, 3, 4, 5, 6, 7, 8]⟩
        [⟨0, 0, 1, 1⟩, ⟨1, 0, 2, 1⟩] = some packed ∧
      unpackSparseTiles (zeroBuffer .FLOAT 2 1) packed
        [⟨0, 0, 1, 1⟩, ⟨1, 0, 2, 1⟩] = some ⟨.FLOAT, 2, 1, [1, 2, 3, 4, 5, 6, 7, 8]⟩ :=
  packUnpackSparseTiles_roundtrip ⟨.FLOAT, 2, 1, [1, 2, 3, 4, 5, 6, 7, 8]⟩
    [⟨0, 0, 1, 1⟩, ⟨1, 0, 2, 1⟩] (by decide) (by decide) (by decide) (by decide)
    (by decide)

/-- C3: for a TileList `[A, B]` with overlapping rectangles, a successful
`unpackSparseTiles` applies the tiles strictly in list order, so every byte
of every pixel in the overlap holds the value from B's segment of the packed
stream (last-writer-wins). -/
theorem unpackSparseTiles_last_writer_wins (buf : Buffer) (src : List Nat)
    (A B : Tile) (x y k : Nat)
    (hfmt : buf.format ≠ .UNINITIALIZED)
    (hlen : buf.data.length = buf.width * buf.height * getSizeOfPixel buf.format)
    (hA : tileInBounds A buf.width buf.height)
    (hB : tileInBounds B buf.width buf.height)
    (hsrc : tileByteCount (getSizeOfPixel buf.format) A +
        tileByteCount (getSizeOfPixel buf.format) B ≤ src.length)
    (hover : tilesOverlap A B)
    (hxA : inTilePixel A x y) (hxB : inTilePixel B x y)
    (hk : k < getSizeOfPixel buf.format) :
    ∃ out, unpackSparseTiles buf src [A, B] = some out ∧
      out.data[(y * buf.width + x) * getSizeOfPixel buf.format + k]? =
        src[tileByteCount (getSizeOfPixel buf.format) A +
            (((y - B.y0) * (B.x1 - B.x0) + (x - B.x0)) * getSizeOfPixel buf.format
              + k)]? := by
  have hbpp := getSizeOfPixel_pos buf.format hfmt
  have hball : ∀ t ∈ [A, B], tileInBounds t buf.width buf.height := by
    intro t ht
    simp only [List.mem_cons, List.not_mem_nil, or_false] at ht
    rcases ht with rfl | rfl
    · exact hA
    · exact hB
  rw [unpackSparseTiles_eq buf src [A, B] hfmt hball]
  refine ⟨_, rfl, ?_⟩
  have hBb := hB
  unfold tileInBounds at hBb
  have hAb := hA
  unfold tileInBounds at hAb
  show (unpackGo buf.width (getSizeOfPixel buf.format) buf.data src
    [A, B])[(y * buf.width + x) * getSizeOfPixel buf.format + k]? = _
  simp only [unpackGo]
  have hd1 : (unpackTile buf.width (getSizeOfPixel buf.format) A src buf.data).length =
      buf.width * buf.height * getSizeOfPixel buf.format :=
    unpackTile_length buf.width buf.height _ A src buf.data hAb.1 hAb.2 hlen
  obtain ⟨hx0, hx1, hy0, hy1⟩ := hxB
  have hslab := inTilePixel_slab buf.width (getSizeOfPixel buf.format) B x y k
    ⟨hx0, hx1, hy0, hy1⟩ hk
  have hsrcB : (y - B.y0 + 1) * rowLen (getSizeOfPixel buf.format) B ≤
      (src.drop (tileByteCount (getSizeOfPixel buf.format) A)).length := by
    rw [List.length_drop]
    have hle : (y - B.y0 + 1) * rowLen (getSizeOfPixel buf.format) B ≤
        tileByteCount (getSizeOfPixel buf.format) B := by
      rw [tileByteCount_eq]
      exact Nat.mul_le_mul (by omega) (le_refl _)
    omega
  rw [unpackTile_getElem_in buf.width buf.height _ B _ _ hBb.1 hBb.2 hd1
      (y - B.y0) (by omega) hsrcB _ hslab.1 hslab.2,
      List.getElem?_drop]
  congr 1
  have hioff : (y * buf.width + x) * getSizeOfPixel buf.format + k -
      rowOff buf.width (getSizeOfPixel buf.format) B (B.y0 + (y - B.y0)) =
      (x - B.x0) * getSizeOfPixel buf.format + k := by
    have hyy : B.y0 + (y - B.y0) = y := by omega
    rw [hyy]
    unfold rowOff
    have hsplit : y * buf.width + x = (y * buf.width + B.x0) + (x - B.x0) := by omega
    rw [hsplit, Nat.add_mul]
    omega
  rw [hioff]
  unfold rowLen
  ring

/-- Witness for C3: a 4×2 FLOAT buffer, A the whole buffer, B its right
half, evaluated at overlap pixel (2,0), byte 0. -/
theorem unpackSparseTiles_last_writer_wins_witness :
    ∃ out,
      unpackSparseTiles ⟨.FLOAT, 4, 2, List.replicate 32 7⟩ (List.range 48)
        [⟨0, 0, 4, 2⟩, ⟨2, 0, 4, 2⟩] = some out ∧
      out.data[(0 * 4 + 2) * getSizeOfPixel .FLOAT + 0]? =
        (List.range 48)[tileByteCount (getSizeOfPixel .FLOAT) ⟨0, 0, 4, 2⟩ +
          (((0 - 0) * (4 - 2) + (2 - 2)) * getSizeOfPixel .FLOAT + 0)]? :=
  unpackSparseTiles_last_writer_wins ⟨.FLOAT, 4, 2, List.replicate 32 7⟩
    (List.range 48) ⟨0, 0, 4, 2⟩ ⟨2, 0, 4, 2⟩ 2 0 0 (by decide) (by decide)
    (by decide) (by decide) (by decide) (by decide) (by decide) (by decide)
    (by decide)

/-- C2: `untile(..., parallel=true)` — whose per-tile copies may complete in
an arbitrary order — and `untile(..., parallel=false)` produce byte-identical
contents in the destination buffer: every parallel outcome equals the
sequential result, because the tiler's rectangles are pairwise disjoint. -/
theorem untile_parallel_deterministic (dst tiledBuffer : Buffer) (tiler : Tiler)
    (out : Buffer)
    (hfmt : dst.format ≠ .UNINITIALIZED)
    (hw : dst.width = tiler.width) (hh : dst.height = tiler.height)
    (hd : dst.data.length = tiler.width * tiler.height * getSizeOfPixel dst.format)
    (htl : tiledBuffer.data.length =
      tileOffset tiler (numTiles tiler) * getSizeOfPixel dst.format)
    (hpar : ParallelUntileResult dst tiledBuffer tiler out) :
    out = untile dst tiledBuffer tiler false := by
  obtain ⟨ord, hperm, hout⟩ := hpar
  subst hout
  obtain ⟨fmt, dw, dh, ddata⟩ := dst
  dsimp only at hw hh hd htl hfmt
  subst hw
  subst hh
  have hbpp := getSizeOfPixel_pos fmt hfmt
  unfold untile untileOrd
  dsimp only
  congr 1
  exact foldl_perm_of_comm
    (fun z : List Nat => z.length = tiler.width * tiler.height * getSizeOfPixel fmt)
    (untileStep tiler.width (getSizeOfPixel fmt) tiledBuffer.data tiler)
    (fun z a hz => untileStep_length (getSizeOfPixel fmt) tiledBuffer.data tiler z a hz)
    (fun a b z hz =>
      untileStep_comm (getSizeOfPixel fmt) tiledBuffer.data tiler hbpp htl z hz a b)
    hperm ddata hd

set_option maxRecDepth 10000 in
/-- Witness for C2: a 16×2 FLOAT image with two 8×2 tiles, the parallel run
completing tile 1 before tile 0. -/
theorem untile_parallel_deterministic_witness :
    untileOrd (zeroBuffer .FLOAT 16 2) (List.range 128) ⟨16, 2⟩ [1, 0] =
      untile (zeroBuffer .FLOAT 16 2) ⟨.FLOAT, 16, 2, List.range 128⟩ ⟨16, 2⟩ false :=
  untile_parallel_deterministic (zeroBuffer .FLOAT 16 2)
    ⟨.FLOAT, 16, 2, List.range 128⟩ ⟨16, 2⟩
    (untileOrd (zeroBuffer .FLOAT 16 2) (List.range 128) ⟨16, 2⟩ [1, 0])
    (by decide) (by decide) (by decide) (by decide) (by decide)
    ⟨[1, 0], by decide, rfl⟩

/-- C10 (code bug): when both the `tmp_dir` attribute and the TMPDIR
environment variable are empty, `getTmpDir` evaluates `tmpDir.back()` on an
empty `std::string` — undefined behavior (modelled as `none`) — instead of
reaching the `"/tmp"` fallback on the next source line. -/
theorem getTmpDir_empty_is_ub : getTmpDir "" "" = none := rfl

end SceneRdl2
